import Mathlib

/-!
Verification development for the secretlint scanner core
(`internal/scanner/rules.go`, `internal/scanner/differ.go`,
`internal/scanner/ignore.go`).

Go strings are modelled as `List Char` (all data handled by the scanner is
ASCII, so Go's byte indexing agrees with character indexing). Go `int`
values that are always non-negative (line counters, match offsets) are
modelled as `Nat`. Fallible Go functions return `Option`/`Except`.

The Go code delegates pattern matching to the standard `regexp` package
(RE2). The fragment of RE2 actually used by the scanner is embedded as the
small syntax `GRE` below, with Go's leftmost-first ("preferred match")
semantics: `ends r s i` enumerates the possible end positions of a match
of `r` starting at position `i` of `s`, in backtracking preference order
(alternation tries its left branch first, greedy repetition tries longer
runs first), so the head of the list is the end position the Go engine
reports.
-/

set_option maxRecDepth 4000

abbrev Str : Type := List Char

/-- One item of an RE2 character class: a single character or a range. -/
inductive CItem : Type
  | single (c : Char)
  | range (lo hi : Char)
deriving Repr, DecidableEq

/-- The fragment of RE2 regular-expression syntax used by the scanner:
literals, character classes (possibly negated), counted greedy repetition
of a class, concatenation, alternation, and the `^` / `$` text anchors. -/
inductive GRE : Type
  | eps
  | lit (c : Char)
  | cls (neg : Bool) (items : List CItem)
  | rep (lo : Nat) (hi : Option Nat) (neg : Bool) (items : List CItem)
  | seq (a b : GRE)
  | alt (a b : GRE)
  | bol
  | eol
deriving Repr, DecidableEq

/-- Membership of a character in a class item list. -/
def cmem (c : Char) (items : List CItem) : Bool :=
  items.any fun it =>
    match it with
    | CItem.single d => c == d
    | CItem.range lo hi => decide (lo.toNat ≤ c.toNat) && decide (c.toNat ≤ hi.toNat)

/-- Whether a character matches a (possibly negated) class. -/
def cmatch (neg : Bool) (items : List CItem) (c : Char) : Bool :=
  if neg then !(cmem c items) else cmem c items

/-- Length of the maximal prefix of `l` whose characters match the class. -/
def runLen (neg : Bool) (items : List CItem) (l : Str) : Nat :=
  (l.takeWhile (cmatch neg items)).length

/-- All end positions of a match of `r` in `s` starting at position `i`,
in the Go engine's backtracking preference order (head = reported match). -/
def ends : GRE → Str → Nat → List Nat
  | GRE.eps, _, i => [i]
  | GRE.lit c, s, i =>
      match s[i]? with
      | some d => if d == c then [i + 1] else []
      | none => []
  | GRE.cls neg items, s, i =>
      match s[i]? with
      | some d => if cmatch neg items d then [i + 1] else []
      | none => []
  | GRE.rep lo hi neg items, s, i =>
      let r := runLen neg items (s.drop i)
      let top := match hi with
        | none => r
        | some h => min r h
      (List.range (top + 1 - lo)).map fun k => i + (top - k)
  | GRE.seq a b, s, i => (ends a s i).flatMap fun k => ends b s k
  | GRE.alt a b, s, i => ends a s i ++ ends b s i
  | GRE.bol, _, i => if i = 0 then [i] else []
  | GRE.eol, s, i => if i = s.length then [i] else []

/-- Go `regexp.MatchString`: an (unanchored) search succeeds if the pattern
matches starting at some position of the text. -/
def matchString (r : GRE) (s : Str) : Bool :=
  (List.range (s.length + 1)).any fun i => !(ends r s i).isEmpty

/-- Go slice `s[i:j]` of a string. -/
def sub (s : Str) (i j : Nat) : Str :=
  (s.drop i).take (j - i)

/-- The leftmost match of `r` in `s` at or after position `pos`, as a
(start, end) pair, choosing the engine-preferred end position. -/
def findFrom (r : GRE) (s : Str) (pos : Nat) : Option (Nat × Nat) :=
  (List.range' pos (s.length + 1 - pos)).findSome? fun i =>
    (ends r s i).head?.map fun e => (i, e)

/-- Successive non-overlapping leftmost matches, as Go's `allMatches`
produces them for the `FindAll...` functions: after a non-empty match the
search resumes at its end; an empty match advances the search position by
one, and it is delivered only when it is not adjacent to the previous
match's end (`prevEnd`), which Go skips. The search position strictly
increases every iteration, so fuel `s.length + 2` never runs out. -/
def findAllAux (r : GRE) (s : Str) : Nat → Option Nat → Nat → List (Nat × Nat)
  | _, _, 0 => []
  | pos, prevEnd, fuel + 1 =>
      match findFrom r s pos with
      | none => []
      | some (i, e) =>
          if i = e then
            if prevEnd = some i then findAllAux r s (i + 1) prevEnd fuel
            else (i, e) :: findAllAux r s (i + 1) (some e) fuel
          else (i, e) :: findAllAux r s e (some e) fuel

/-- Go `Regexp.FindAllStringIndex(s, -1)`: all non-overlapping match spans. -/
def findAllIndex (r : GRE) (s : Str) : List (Nat × Nat) :=
  findAllAux r s 0 none (s.length + 2)

/-- Go `Regexp.FindAllStringSubmatch(s, -1)`: one row per match. The Go
rows also carry capture-group texts after index 0; only index 0 (the whole
match) is ever read by the scanner, so a row is modelled as the singleton
list holding the matched text. -/
def findAllSubmatch (r : GRE) (s : Str) : List (List Str) :=
  (findAllIndex r s).map fun p => [sub s p.1 p.2]

-- Basic bounds: every match span lies inside the string.

theorem le_length_of_mem_takeWhile_length {p : Char → Bool} (l : Str) :
    (l.takeWhile p).length ≤ l.length := by
  induction l with
  | nil => simp [List.takeWhile]
  | cons a l ih =>
      by_cases h : p a
      · simp [List.takeWhile, h]
        omega
      · simp [List.takeWhile, h]

theorem mem_ends_bounds {r : GRE} {s : Str} :
    ∀ {i j : Nat}, i ≤ s.length → j ∈ ends r s i → i ≤ j ∧ j ≤ s.length := by
  induction r with
  | eps =>
      intro i j hi hj
      simp [ends] at hj
      omega
  | lit c =>
      intro i j hi hj
      simp only [ends] at hj
      cases hg : s[i]? with
      | none => simp [hg] at hj
      | some d =>
          have hlen : i < s.length := by
            by_contra h
            rw [List.getElem?_eq_none (by omega)] at hg
            exact Option.noConfusion hg
          simp only [hg] at hj
          by_cases hd : d == c
          · simp [hd] at hj
            omega
          · simp [hd] at hj
  | cls neg items =>
      intro i j hi hj
      simp only [ends] at hj
      cases hg : s[i]? with
      | none => simp [hg] at hj
      | some d =>
          have hlen : i < s.length := by
            by_contra h
            rw [List.getElem?_eq_none (by omega)] at hg
            exact Option.noConfusion hg
          simp only [hg] at hj
          by_cases hd : cmatch neg items d
          · simp [hd] at hj
            omega
          · simp [hd] at hj
  | rep lo hi neg items =>
      intro i j hile hj
      simp only [ends, List.mem_map, List.mem_range] at hj
      obtain ⟨k, hk, rfl⟩ := hj
      have hrun : runLen neg items (s.drop i) ≤ s.length - i := by
        have h1 := le_length_of_mem_takeWhile_length (p := cmatch neg items) (s.drop i)
        simpa [runLen] using h1
      cases hi with
      | none =>
          simp only at hk ⊢
          omega
      | some h =>
          simp only at hk ⊢
          have : min (runLen neg items (s.drop i)) h ≤ runLen neg items (s.drop i) :=
            Nat.min_le_left _ _
          omega
  | seq a b iha ihb =>
      intro i j hi hj
      simp only [ends, List.mem_flatMap] at hj
      obtain ⟨k, hk, hj2⟩ := hj
      have h1 := iha hi hk
      have h2 := ihb h1.2 hj2
      omega
  | alt a b iha ihb =>
      intro i j hi hj
      simp only [ends, List.mem_append] at hj
      rcases hj with h | h
      · exact iha hi h
      · exact ihb hi h
  | bol =>
      intro i j hi hj
      simp only [ends] at hj
      by_cases h : i = 0
      · simp [h] at hj
        omega
      · simp [h] at hj
  | eol =>
      intro i j hi hj
      simp only [ends] at hj
      by_cases h : i = s.length
      · simp [h] at hj
        omega
      · simp [h] at hj

/-!
Model of `internal/scanner/rules.go`.
-/

/-- SecretRule (rules.go): a named detector with a compiled pattern. -/
structure SecretRule where
  ID : String
  Name : String
  Pattern : GRE
  Description : String
  Advice : String
deriving Repr, DecidableEq

/-- Finding (rules.go): one match of one rule against one line. -/
structure Finding where
  RuleID : String
  RuleName : String
  FilePath : Str
  LineNum : Nat
  Content : Str
  Match : Str
  StartPos : Nat
  EndPos : Nat
  Description : String
  Advice : String
deriving Repr, DecidableEq

/-- Concatenation of literal characters (a literal string in a pattern). -/
def strLits (cs : Str) : GRE :=
  cs.foldr (fun c g => GRE.seq (GRE.lit c) g) GRE.eps

/-- A case-insensitive literal character, as compiled under the RE2 `(?i)`
flag: a class holding both case variants. -/
def litCI (c : Char) : GRE :=
  GRE.cls false [CItem.single c.toLower, CItem.single c.toUpper]

/-- Concatenation of case-insensitive literal characters. -/
def strLitsCI (cs : Str) : GRE :=
  cs.foldr (fun c g => GRE.seq (litCI c) g) GRE.eps

/-- RE2 `[A-Za-z0-9]`. -/
def alnumItems : List CItem :=
  [CItem.range 'A' 'Z', CItem.range 'a' 'z', CItem.range '0' '9']

/-- RE2 `\s`, i.e. the class of tab, newline, form feed, carriage return
and space. -/
def wsItems : List CItem :=
  [CItem.single '\t', CItem.single '\n', CItem.single '\x0c',
   CItem.single '\r', CItem.single ' ']

/-- RE2 `['\"]`, the class of the two quote characters. -/
def quoteItems : List CItem :=
  [CItem.single (Char.ofNat 39), CItem.single '"']

/-- OPENAI_API_KEY pattern, from the source string `sk-[A-Za-z0-9]{20,}`. -/
def patOpenAI : GRE :=
  GRE.seq (strLits ("sk-".data)) (GRE.rep 20 none false alnumItems)

/-- GITHUB_PAT pattern, from `ghp_[A-Za-z0-9]{36}`. -/
def patGithub : GRE :=
  GRE.seq (strLits ("ghp_".data)) (GRE.rep 36 (some 36) false alnumItems)

/-- AWS_ACCESS_KEY pattern, from `(AKIA|ASIA)[A-Z0-9]{16}`. -/
def patAwsAccess : GRE :=
  GRE.seq (GRE.alt (strLits ("AKIA".data)) (strLits ("ASIA".data)))
    (GRE.rep 16 (some 16) false [CItem.range 'A' 'Z', CItem.range '0' '9'])

/-- AWS_SECRET_KEY pattern, from
`(?i)aws(.{0,20})?(secret|access).{0,20}['\"][A-Za-z0-9/+=]{40}['\"]`.
RE2 `.` matches every character except newline; `(?i)` folds the case of
the literals. -/
def patAwsSecret : GRE :=
  GRE.seq (strLitsCI ("aws".data))
    (GRE.seq (GRE.alt (GRE.rep 0 (some 20) true [CItem.single '\n']) GRE.eps)
      (GRE.seq (GRE.alt (strLitsCI ("secret".data)) (strLitsCI ("access".data)))
        (GRE.seq (GRE.rep 0 (some 20) true [CItem.single '\n'])
          (GRE.seq (GRE.cls false quoteItems)
            (GRE.seq
              (GRE.rep 40 (some 40) false
                [CItem.range 'A' 'Z', CItem.range 'a' 'z', CItem.range '0' '9',
                 CItem.single '/', CItem.single '+', CItem.single '='])
              (GRE.cls false quoteItems))))))

/-- STRIPE_LIVE_PK pattern, from `pk_live_[A-Za-z0-9]{24}`. -/
def patStripePk : GRE :=
  GRE.seq (strLits ("pk_live_".data)) (GRE.rep 24 (some 24) false alnumItems)

/-- STRIPE_LIVE_SK pattern, from `sk_live_[A-Za-z0-9]{24}`. -/
def patStripeSk : GRE :=
  GRE.seq (strLits ("sk_live_".data)) (GRE.rep 24 (some 24) false alnumItems)

/-- SLACK_TOKEN pattern, from `xox[baprs]-[0-9A-Za-z\-]+`. -/
def patSlack : GRE :=
  GRE.seq (strLits ("xox".data))
    (GRE.seq
      (GRE.cls false
        [CItem.single 'b', CItem.single 'a', CItem.single 'p',
         CItem.single 'r', CItem.single 's'])
      (GRE.seq (GRE.lit '-')
        (GRE.rep 1 none false
          [CItem.range '0' '9', CItem.range 'A' 'Z', CItem.range 'a' 'z',
           CItem.single '-'])))

/-- JWT_TOKEN pattern, from
`eyJ[A-Za-z0-9_\-]+\.[A-Za-z0-9._\-]+\.[A-Za-z0-9._\-]+`. -/
def patJwt : GRE :=
  GRE.seq (strLits ("eyJ".data))
    (GRE.seq
      (GRE.rep 1 none false
        [CItem.range 'A' 'Z', CItem.range 'a' 'z', CItem.range '0' '9',
         CItem.single '_', CItem.single '-'])
      (GRE.seq (GRE.lit '.')
        (GRE.seq
          (GRE.rep 1 none false
            [CItem.range 'A' 'Z', CItem.range 'a' 'z', CItem.range '0' '9',
             CItem.single '.', CItem.single '_', CItem.single '-'])
          (GRE.seq (GRE.lit '.')
            (GRE.rep 1 none false
              [CItem.range 'A' 'Z', CItem.range 'a' 'z', CItem.range '0' '9',
               CItem.single '.', CItem.single '_', CItem.single '-'])))))

/-- RE2 `[_\-]?` under `(?i)`. -/
def optUnderscore : GRE :=
  GRE.alt (GRE.cls false [CItem.single '_', CItem.single '-']) GRE.eps

/-- GENERIC_API_KEY pattern, from
`(?i)(api[_\-]?key|apikey|secret[_\-]?key|secretkey|access[_\-]?token|accesstoken)\s*[=:]\s*['\"]?[A-Za-z0-9\+/]{32,}['\"]?`.
The six key spellings are the alternation in source order. -/
def patGeneric : GRE :=
  GRE.seq
    (GRE.alt (GRE.seq (strLitsCI ("api".data)) (GRE.seq optUnderscore (strLitsCI ("key".data))))
      (GRE.alt (strLitsCI ("apikey".data))
        (GRE.alt (GRE.seq (strLitsCI ("secret".data)) (GRE.seq optUnderscore (strLitsCI ("key".data))))
          (GRE.alt (strLitsCI ("secretkey".data))
            (GRE.alt (GRE.seq (strLitsCI ("access".data)) (GRE.seq optUnderscore (strLitsCI ("token".data))))
              (strLitsCI ("accesstoken".data)))))))
    (GRE.seq (GRE.rep 0 none false wsItems)
      (GRE.seq (GRE.cls false [CItem.single '=', CItem.single ':'])
        (GRE.seq (GRE.rep 0 none false wsItems)
          (GRE.seq (GRE.alt (GRE.cls false quoteItems) GRE.eps)
            (GRE.seq
              (GRE.rep 32 none false
                [CItem.range 'A' 'Z', CItem.range 'a' 'z', CItem.range '0' '9',
                 CItem.single '+', CItem.single '/'])
              (GRE.alt (GRE.cls false quoteItems) GRE.eps))))))

/-- PRIVATE_KEY pattern, from `-----BEGIN\s+(RSA\s+)?PRIVATE\s+KEY-----`. -/
def patPrivateKey : GRE :=
  GRE.seq (strLits ("-----BEGIN".data))
    (GRE.seq (GRE.rep 1 none false wsItems)
      (GRE.seq (GRE.alt (GRE.seq (strLits ("RSA".data)) (GRE.rep 1 none false wsItems)) GRE.eps)
        (GRE.seq (strLits ("PRIVATE".data))
          (GRE.seq (GRE.rep 1 none false wsItems) (strLits ("KEY-----".data))))))

/-- loadDefaultRules (rules.go): the ten curated rules, in load order.
All ten source pattern strings compile successfully under Go's `regexp`
package, so none is skipped by the error branch of the loader. -/
def defaultRules : List SecretRule :=
  [{ ID := "OPENAI_API_KEY", Name := "OpenAI API Key", Pattern := patOpenAI,
     Description := "OpenAI API key detected",
     Advice := "Move this to an environment variable (.env file) and add .env to .gitignore" },
   { ID := "GITHUB_PAT", Name := "GitHub Personal Access Token", Pattern := patGithub,
     Description := "GitHub Personal Access Token detected",
     Advice := "Store in environment variables or GitHub Secrets for CI/CD" },
   { ID := "AWS_ACCESS_KEY", Name := "AWS Access Key ID", Pattern := patAwsAccess,
     Description := "AWS Access Key ID detected",
     Advice := "Use AWS IAM roles or store in AWS credentials file/environment variables" },
   { ID := "AWS_SECRET_KEY", Name := "AWS Secret Access Key", Pattern := patAwsSecret,
     Description := "AWS Secret Access Key detected",
     Advice := "Use AWS IAM roles or store in AWS credentials file/environment variables" },
   { ID := "STRIPE_LIVE_PK", Name := "Stripe Live Publishable Key", Pattern := patStripePk,
     Description := "Stripe Live Publishable Key detected",
     Advice := "Move to environment variables and ensure it's not exposed in client-side code" },
   { ID := "STRIPE_LIVE_SK", Name := "Stripe Live Secret Key", Pattern := patStripeSk,
     Description := "Stripe Live Secret Key detected",
     Advice := "Move to environment variables and never expose in client-side code" },
   { ID := "SLACK_TOKEN", Name := "Slack Token", Pattern := patSlack,
     Description := "Slack API token detected",
     Advice := "Store in environment variables or secure configuration management" },
   { ID := "JWT_TOKEN", Name := "JSON Web Token", Pattern := patJwt,
     Description := "JWT token detected",
     Advice := "Avoid committing JWTs; use secure token storage and short expiration times" },
   { ID := "GENERIC_API_KEY", Name := "Generic API Key Pattern", Pattern := patGeneric,
     Description := "Generic API key pattern detected",
     Advice := "Move sensitive keys to environment variables or secure configuration" },
   { ID := "PRIVATE_KEY", Name := "Private Key", Pattern := patPrivateKey,
     Description := "Private key detected",
     Advice := "Store private keys securely, never commit to version control" }]

/-- The body of the `for i, match := range matches` loop in ScanLine:
`matchText` is `match[0]` when the row is non-empty, and the positions come
from `indexes[i]` when `i < len(indexes)` (zero otherwise). -/
def buildFindings (rule : SecretRule) (filePath : Str) (lineNum : Nat)
    (content : Str) (indexes : List (Nat × Nat)) : Nat → List (List Str) → List Finding
  | _, [] => []
  | i, row :: rest =>
      let matchText := row.headD []
      let ps := indexes.getD i (0, 0)
      { RuleID := rule.ID, RuleName := rule.Name, FilePath := filePath,
        LineNum := lineNum, Content := content, Match := matchText,
        StartPos := ps.1, EndPos := ps.2, Description := rule.Description,
        Advice := rule.Advice } ::
        buildFindings rule filePath lineNum content indexes (i + 1) rest

/-- ScanLine (rules.go): for every rule, enumerate the rule's matches on
the line (skipping the rule when `FindAllStringSubmatch` reports none) and
record one Finding per match. -/
def ScanLine (rules : List SecretRule) (filePath : Str) (lineNum : Nat)
    (content : Str) : List Finding :=
  rules.flatMap fun rule =>
    let matchRows := findAllSubmatch rule.Pattern content
    if matchRows.isEmpty then []
    else buildFindings rule filePath lineNum content
      (findAllIndex rule.Pattern content) 0 matchRows

/-- MaskSecret (rules.go): a secret of length at most 8 is fully masked;
otherwise the first 4 and last 4 characters are kept and the middle is
replaced by `*`. -/
def MaskSecret (f : Finding) : Str :=
  if f.Match.length ≤ 8 then
    List.replicate f.Match.length '*'
  else
    f.Match.take 4 ++
      (List.replicate (f.Match.length - 8) '*' ++
        f.Match.drop (f.Match.length - 4))

/-!
Model of `internal/scanner/differ.go`.
-/

/-- DiffLine (differ.go): a line added in a git diff. -/
structure DiffLine where
  FilePath : Str
  LineNum : Nat
  Content : Str
deriving Repr, DecidableEq

/-- Strips `pre` from the front of `l`, returning the remainder. -/
def stripPre : Str → Str → Option Str
  | [], l => some l
  | _, [] => none
  | p :: ps, c :: cs => if p == c then stripPre ps cs else none

/-- The file-header regular expression of parseDiff,
`^\+\+\+ b/(.+)$`, applied to one diff line: on success it returns the
captured path. RE2 `.` excludes newline and `$` is the end of the text,
so the capture must be non-empty and newline-free. -/
def matchFileHeader (line : Str) : Option Str :=
  match stripPre ("+++ b/".data) line with
  | none => none
  | some rest => if rest.isEmpty || rest.contains '\n' then none else some rest

/-- The optional `(?:,\d+)?` group of the hunk-header expression: a comma
must be followed by at least one digit, otherwise the whole match fails
(the `,` cannot be consumed any other way). -/
def optCommaDigits (l : Str) : Option Str :=
  match l with
  | ',' :: t =>
      if (t.takeWhile Char.isDigit).isEmpty then none
      else some (t.dropWhile Char.isDigit)
  | _ => some l

/-- The hunk-header regular expression of parseDiff,
`^@@ -\d+(?:,\d+)? \+(\d+)(?:,\d+)? @@`, applied to one diff line: on
success it returns the captured new-start digit string. The expression is
not end-anchored, so trailing text after the closing `@@` is allowed. -/
def matchHunkHeader (line : Str) : Option Str :=
  match stripPre ("@@ -".data) line with
  | none => none
  | some r0 =>
      if (r0.takeWhile Char.isDigit).isEmpty then none
      else
        match optCommaDigits (r0.dropWhile Char.isDigit) with
        | none => none
        | some r2 =>
            match stripPre (" +".data) r2 with
            | none => none
            | some r3 =>
                let cap := r3.takeWhile Char.isDigit
                if cap.isEmpty then none
                else
                  match optCommaDigits (r3.dropWhile Char.isDigit) with
                  | none => none
                  | some r5 =>
                      match stripPre (" @@".data) r5 with
                      | none => none
                      | some _ => some cap

/-- Go `strconv.Atoi` on the digit string captured by the hunk-header
expression: the string is all digits, so the only failure mode is a value
out of the 64-bit signed integer range. -/
def atoi (ds : Str) : Except Unit Nat :=
  let v := ds.foldl (fun a c => a * 10 + (c.toNat - 48)) 0
  if v ≤ 9223372036854775807 then Except.ok v else Except.error ()

/-- The added-line test of parseDiff:
`strings.HasPrefix(line, "+") && !strings.HasPrefix(line, "+++")`. -/
def isAddedLine (line : Str) : Bool :=
  ("+".data).isPrefixOf line && !(("+++".data).isPrefixOf line)

/-- One iteration of the parseDiff scan loop, on state (current file,
current line number): file headers set the file, hunk headers set the line
counter from the captured new-start, added lines emit a DiffLine and
advance the counter, context lines advance the counter, everything else
(including removed lines) is ignored. -/
def processLine (file : Str) (num : Nat) (line : Str) :
    Except Unit (Str × Nat × Option DiffLine) :=
  match matchFileHeader line with
  | some f => Except.ok (f, num, none)
  | none =>
      match matchHunkHeader line with
      | some ds =>
          match atoi ds with
          | Except.ok n => Except.ok (file, n, none)
          | Except.error e => Except.error e
      | none =>
          if isAddedLine line then
            Except.ok (file, num + 1, some ⟨file, num, line.drop 1⟩)
          else if (" ".data).isPrefixOf line then
            Except.ok (file, num + 1, none)
          else
            Except.ok (file, num, none)

/-- The parseDiff scan loop over a list of lines, threading the state and
collecting emitted DiffLines. -/
def runLines (file : Str) (num : Nat) :
    List Str → Except Unit (Str × Nat × List DiffLine)
  | [] => Except.ok (file, num, [])
  | l :: ls =>
      match processLine file num l with
      | Except.error e => Except.error e
      | Except.ok (f2, n2, rec?) =>
          match runLines f2 n2 ls with
          | Except.error e => Except.error e
          | Except.ok (g, m, recs) => Except.ok (g, m, rec?.toList ++ recs)

/-- Drops one trailing carriage return, as `bufio.ScanLines` does. -/
def dropCR (l : Str) : Str :=
  if l.getLast? = some '\r' then l.dropLast else l

/-- The raw tokens of `bufio.Scanner` with the default `ScanLines` split
function, before carriage-return stripping: tokens are separated by
newlines and a trailing newline does not produce a final empty token. -/
def rawLines (s : Str) : List Str :=
  if s.isEmpty then []
  else
    let parts := s.splitOn '\n'
    if parts.getLast? = some [] then parts.dropLast else parts

/-- The lines produced by `bufio.Scanner` with the default `ScanLines`
split function: each raw token loses one trailing carriage return. -/
def splitLines (s : Str) : List Str :=
  (rawLines s).map dropCR

/-- `bufio.MaxScanTokenSize`, the scanner's default maximum token size:
a raw line of this many bytes or more (its newline no longer fits in the
full buffer, or the buffer fills before end of input is seen) makes
`Scanner.Scan` stop with `ErrTooLong`. -/
def maxScanTokenSize : Nat := 65536

/-- parseDiff (differ.go): scan the diff text line by line and extract the
added lines with their file and line-number identity. When any raw line
reaches the scanner's maximum token size, the scan loop stops early and
`scanner.Err()` is non-nil, so the function returns an error and the
records collected so far are discarded. -/
def parseDiff (diffOutput : Str) : Except Unit (List DiffLine) :=
  if (rawLines diffOutput).any (fun l => Nat.ble maxScanTokenSize l.length) then
    Except.error ()
  else
    match runLines [] 0 (splitLines diffOutput) with
    | Except.error e => Except.error e
    | Except.ok (_, _, recs) => Except.ok recs

/-!
Model of `internal/scanner/ignore.go`.
-/

/-- One fragment of the regex text built by globToRegex, standing for the
exact string the Go code appends in the corresponding branch:
`anySegs` is the text `(?:.*/|^)` emitted for a leading-directories
`**/`, `anyTail` is `.*` for a trailing `**`, `starNonSep` is `[^/]*`,
`oneNonSep` is `[^/]`, `cls` is a bracketed character class (negation
already mapped from `!` to `^`, brackets not stored), and `lit` is a
literal character (regex metacharacters are emitted backslash-escaped by
the source, which also denotes a literal). -/
inductive Tok : Type
  | anySegs
  | anyTail
  | starNonSep
  | oneNonSep
  | cls (neg : Bool) (content : Str)
  | lit (c : Char)
deriving Repr, DecidableEq

/-- The optional leading `!` of a character class: `[!` negates. -/
def classNeg (rest : Str) : Bool × Str :=
  match rest with
  | '!' :: t => (true, t)
  | _ => (false, rest)

/-- A `]` directly after `[` (or `[!`) is taken as class content. -/
def classLead (l : Str) : Str × Str :=
  match l with
  | ']' :: t => ([']'], t)
  | _ => (([] : Str), l)

/-- The character-class scan of globToRegex (ignore.go), after the
negation and leading-bracket steps: everything up to the closing `]` is
class content; a missing `]` is an unterminated class. -/
def scanClassCore (n : Bool) (pre : Str) (l : Str) : Option (Bool × Str × Str) :=
  match l.dropWhile (fun c => !(c == ']')) with
  | [] => none
  | _ :: rest3 => some (n, pre ++ l.takeWhile (fun c => !(c == ']')), rest3)

/-- The full character-class scan: an optional `!` (negation), an optional
first `]` kept as content, then content up to the closing bracket.
Returns the negation flag, the class content and the text after the
closing bracket, or `none` when the class is unterminated. -/
def scanClass (rest : Str) : Option (Bool × Str × Str) :=
  scanClassCore (classNeg rest).1 (classLead (classNeg rest).2).1
    (classLead (classNeg rest).2).2

theorem classNeg_len (rest : Str) : (classNeg rest).2.length ≤ rest.length := by
  unfold classNeg
  split <;> simp

theorem classLead_len (l : Str) : (classLead l).2.length ≤ l.length := by
  unfold classLead
  split <;> simp

theorem scanClassCore_length {n n2 : Bool} {pre l content rest3 : Str}
    (h : scanClassCore n pre l = some (n2, content, rest3)) :
    rest3.length < l.length := by
  unfold scanClassCore at h
  rcases hd : l.dropWhile (fun c => !(c == ']')) with _ | ⟨a, r3⟩
  · rw [hd] at h
    exact absurd h (by simp)
  · rw [hd] at h
    simp only [Option.some.injEq, Prod.mk.injEq] at h
    obtain ⟨-, -, rfl⟩ := h
    have h1 : (a :: r3).length ≤ l.length := by
      rw [← hd]
      exact (List.dropWhile_sublist _).length_le
    simp only [List.length_cons] at h1
    omega

theorem scanClass_length {rest : Str} {n : Bool} {content rest3 : Str}
    (h : scanClass rest = some (n, content, rest3)) :
    rest3.length < rest.length + 1 := by
  have h1 := scanClassCore_length h
  have h2 := classLead_len (classNeg rest).2
  have h3 := classNeg_len rest
  omega

/-- globToRegexAux: the translation loop of globToRegex (ignore.go),
processing the glob character by character into regex fragments and
failing on an unterminated character class. A `**` not followed by `/`
and not at the end is treated as a single `*` that advances by one
character only, so its second star is reprocessed. The fuel argument is
the loop variant: every iteration consumes at least one character, so
`length + 1` steps always suffice and the fuel-exhaustion branch is
unreachable when called from `globToRegex`. -/
def globToRegexAux : Nat → Str → Except Unit (List Tok)
  | _, [] => Except.ok []
  | 0, _ :: _ => Except.error ()
  | fuel + 1, '*' :: '*' :: '/' :: rest3 =>
      (globToRegexAux fuel rest3).map (Tok.anySegs :: ·)
  | _ + 1, '*' :: '*' :: [] => Except.ok [Tok.anyTail]
  | fuel + 1, '*' :: '*' :: c :: rest2 =>
      (globToRegexAux fuel ('*' :: c :: rest2)).map (Tok.starNonSep :: ·)
  | fuel + 1, '*' :: rest => (globToRegexAux fuel rest).map (Tok.starNonSep :: ·)
  | fuel + 1, '?' :: rest => (globToRegexAux fuel rest).map (Tok.oneNonSep :: ·)
  | fuel + 1, '[' :: rest =>
      match scanClass rest with
      | none => Except.error ()
      | some (n, content, rest3) =>
          (globToRegexAux fuel rest3).map (Tok.cls n content :: ·)
  | fuel + 1, c :: rest => (globToRegexAux fuel rest).map (Tok.lit c :: ·)

/-- globToRegex (ignore.go): the glob translation at its natural fuel. -/
def globToRegex (glob : Str) : Except Unit (List Tok) :=
  globToRegexAux (glob.length + 1) glob

/-- The regex special characters that globToRegex escapes with a
backslash when they occur as ordinary glob characters (ignore.go). -/
def regexSpecials : Str :=
  ['.', '^', '$', '+', Char.ofNat 123, Char.ofNat 125, '(', ')', '|', '\\']

/-- The exact regular-expression text globToRegex emits for each glob
fragment: `**/` becomes `(?:.*/|^)`, a trailing `**` becomes `.*`, a
star becomes `[^/]*`, `?` becomes `[^/]`, a character class is copied
verbatim with `[!` rewritten to `[^`, and an ordinary character is
emitted as itself, backslash-escaped when it is a regex special. -/
def tokText : Tok → Str
  | Tok.anySegs => "(?:.*/|^)".data
  | Tok.anyTail => ".*".data
  | Tok.starNonSep => "[^/]*".data
  | Tok.oneNonSep => "[^/]".data
  | Tok.cls neg content =>
      '[' :: ((if neg then ['^'] else []) ++ content ++ [']'])
  | Tok.lit c => if regexSpecials.contains c then ['\\', c] else [c]

/-- RE2 `\d`, the decimal digits. -/
def digitItems : List CItem := [CItem.range '0' '9']

/-- RE2 `\w`, the word characters. -/
def wordItems : List CItem :=
  [CItem.range '0' '9', CItem.range 'A' 'Z', CItem.single '_',
   CItem.range 'a' 'z']

/-- The complement of a sorted disjoint list of class items over the
rune range 0..0x10FFFF, as RE2 computes for negated class escapes and
negated named classes; `lo` is the least code point not yet covered. -/
def complementAux : Nat → List CItem → List CItem
  | lo, [] =>
      if lo ≤ 0x10FFFF then
        [CItem.range (Char.ofNat lo) (Char.ofNat 0x10FFFF)]
      else []
  | lo, CItem.single c :: rest =>
      (if lo < c.toNat then
         [CItem.range (Char.ofNat lo) (Char.ofNat (c.toNat - 1))]
       else []) ++ complementAux (c.toNat + 1) rest
  | lo, CItem.range a b :: rest =>
      (if lo < a.toNat then
         [CItem.range (Char.ofNat lo) (Char.ofNat (a.toNat - 1))]
       else []) ++ complementAux (b.toNat + 1) rest

/-- Complement of a class-item list over the full rune range. -/
def complementRanges (items : List CItem) : List CItem :=
  complementAux 0 items

/-- The POSIX named classes of RE2 (ASCII ranges, as in Go's
regexp/syntax tables), keyed by the name between `[:` and `:]`. -/
def posixItems (name : Str) : Option (List CItem) :=
  if name = "alnum".data then
    some [CItem.range '0' '9', CItem.range 'A' 'Z', CItem.range 'a' 'z']
  else if name = "alpha".data then
    some [CItem.range 'A' 'Z', CItem.range 'a' 'z']
  else if name = "ascii".data then
    some [CItem.range (Char.ofNat 0) (Char.ofNat 127)]
  else if name = "blank".data then
    some [CItem.single '\t', CItem.single ' ']
  else if name = "cntrl".data then
    some [CItem.range (Char.ofNat 0) (Char.ofNat 31),
          CItem.single (Char.ofNat 127)]
  else if name = "digit".data then some digitItems
  else if name = "graph".data then some [CItem.range '!' '~']
  else if name = "lower".data then some [CItem.range 'a' 'z']
  else if name = "print".data then some [CItem.range ' ' '~']
  else if name = "punct".data then
    some [CItem.range '!' '/', CItem.range ':' '@',
          CItem.range '[' (Char.ofNat 96),
          CItem.range (Char.ofNat 123) '~']
  else if name = "space".data then
    some [CItem.range '\t' '\r', CItem.single ' ']
  else if name = "upper".data then some [CItem.range 'A' 'Z']
  else if name = "word".data then some wordItems
  else if name = "xdigit".data then
    some [CItem.range '0' '9', CItem.range 'A' 'F', CItem.range 'a' 'f']
  else none

/-- The class escapes `\d \s \w` and their negations, recognised by RE2
both inside a class and as standalone atoms; any other escape has no
class meaning. -/
def classEscItems (c : Char) : Option (List CItem) :=
  if c = 'd' then some digitItems
  else if c = 's' then some wsItems
  else if c = 'w' then some wordItems
  else if c = 'D' then some (complementRanges digitItems)
  else if c = 'S' then some (complementRanges wsItems)
  else if c = 'W' then some (complementRanges wordItems)
  else none

/-- RE2 single-character escapes within the modelled fragment: the
control escapes `\a \f \n \r \t \v`, and a backslash before a
non-alphanumeric character denoting that character literally. A
backslash before any other alphanumeric is rejected; the numeric and
hex escapes (`\0`, `\x`) and unicode classes (`\p`), which globToRegex
itself never emits (it escapes only punctuation), are outside the
modelled fragment. -/
def escCharLit (c : Char) : Option Char :=
  if c = 'a' then some (Char.ofNat 7)
  else if c = 'f' then some (Char.ofNat 12)
  else if c = 'n' then some '\n'
  else if c = 'r' then some '\r'
  else if c = 't' then some '\t'
  else if c = 'v' then some (Char.ofNat 11)
  else if c.isAlphanum then none
  else some c

/-- Locate the first `:]` in the text, as RE2 does after seeing `[:`
inside a class: the characters before it name the class, the rest
follows it; `none` when no `:]` occurs. -/
def findColonBracket : Str → Option (Str × Str)
  | [] => none
  | ':' :: ']' :: t => some ([], t)
  | c :: t => (findColonBracket t).map fun p => (c :: p.1, p.2)

/-- One class element whose low character `c` is already decoded: a
following `-]` makes both `c` and `-` literals before the class
closes, a following `-x` (with `x` possibly an escape denoting a
single character) makes a range, rejected when reversed, and otherwise
`c` alone is a literal; `cont` parses the remainder of the class. -/
def parseClassChar (cont : Str → Option (List CItem × Str)) (c : Char) :
    Str → Option (List CItem × Str)
  | '-' :: ']' :: rest2 =>
      some ([CItem.single c, CItem.single '-'], rest2)
  | '-' :: '\\' :: d :: rest2 =>
      (match escCharLit d with
       | none => none
       | some d2 =>
           if c.toNat ≤ d2.toNat then
             (cont rest2).map fun p => (CItem.range c d2 :: p.1, p.2)
           else none)
  | '-' :: ['\\'] => none
  | '-' :: d :: rest2 =>
      if d = ']' then none
      else if c.toNat ≤ d.toNat then
        (cont rest2).map fun p => (CItem.range c d :: p.1, p.2)
      else none
  | rest => (cont rest).map fun p => (CItem.single c :: p.1, p.2)

/-- The element loop of RE2 class parsing, after the optional leading
`^`: `first` is true only for the very first element, where a `]` is an
ordinary character rather than the closing bracket; `[:name:]` is a
POSIX named class (negated by a `^` before the name; an unknown name is
an error, while a `[:` with no following `:]` is an ordinary `[`); a
backslash introduces a class escape or an escaped character; exhausting
the text without a closing `]` is an error. Returns the items and the
text after the closing bracket. -/
def parseClassItems : Nat → Bool → Str → Option (List CItem × Str)
  | 0, _, _ => none
  | _ + 1, _, [] => none
  | fuel + 1, first, ']' :: rest =>
      if first then
        parseClassChar (fun t => parseClassItems fuel false t) ']' rest
      else some ([], rest)
  | fuel + 1, _, '[' :: ':' :: rest =>
      (match findColonBracket rest with
       | some (name, rest2) =>
           (match
              (match name with
               | '^' :: nbase => (posixItems nbase).map complementRanges
               | _ => posixItems name) with
            | none => none
            | some items =>
                (parseClassItems fuel false rest2).map fun p =>
                  (items ++ p.1, p.2))
       | none =>
           parseClassChar (fun t => parseClassItems fuel false t) '['
             (':' :: rest))
  | fuel + 1, _, '\\' :: c :: rest =>
      (match classEscItems c with
       | some items =>
           (parseClassItems fuel false rest).map fun p =>
             (items ++ p.1, p.2)
       | none =>
           match escCharLit c with
           | none => none
           | some c2 =>
               parseClassChar (fun t => parseClassItems fuel false t) c2 rest)
  | _ + 1, _, ['\\'] => none
  | fuel + 1, _, c :: rest =>
      parseClassChar (fun t => parseClassItems fuel false t) c rest

/-- RE2 parsing of a class body, the text following the opening `[`: an
optional leading `^` negates the class, after which the element loop
runs with its first-element allowance. Returns the negation flag, the
items, and the text after the closing bracket. -/
def parseClassBody (text : Str) : Option (Bool × List CItem × Str) :=
  match text with
  | '^' :: t =>
      (parseClassItems (t.length + 1) true t).map fun p => (true, p.1, p.2)
  | _ =>
      (parseClassItems (text.length + 1) true text).map fun p =>
        (false, p.1, p.2)

/-- The translation `(?:.*/|^)` of a `**/` glob token: either a run of
non-newline characters followed by the separator, or the start-of-text
assertion (which succeeds only at position 0). The left branch is
preferred, matching the engine order. -/
def greAnySegs : GRE :=
  GRE.alt
    (GRE.seq (GRE.rep 0 none true [CItem.single '\n']) (GRE.lit '/'))
    GRE.bol

/-- RE2 parsing of the regex body text built by globToRegex, atom by
atom: the group `(?:.*/|^)` (the only group globToRegex writes, and the
only unescaped parenthesis that can occur), escapes, `.`, character
classes via `parseClassBody`, each with an optional `*` star, ordinary
literal characters, and a `*` with no preceding atom as an error. Every
step consumes at least one character, so fuel `length + 1` always
suffices. -/
def parseAtoms : Nat → Str → Option GRE
  | _, [] => some GRE.eps
  | 0, _ :: _ => none
  | fuel + 1, text =>
      if ("(?:.*/|^)".data).isPrefixOf text then
        (parseAtoms fuel (text.drop 9)).map (GRE.seq greAnySegs)
      else
        match text with
        | [] => some GRE.eps
        | '\\' :: c :: rest =>
            (match classEscItems c with
             | some items =>
                 (match rest with
                  | '*' :: rest2 =>
                      (parseAtoms fuel rest2).map
                        (GRE.seq (GRE.rep 0 none false items))
                  | _ =>
                      (parseAtoms fuel rest).map
                        (GRE.seq (GRE.cls false items)))
             | none =>
                 match escCharLit c with
                 | none => none
                 | some c2 => (parseAtoms fuel rest).map (GRE.seq (GRE.lit c2)))
        | ['\\'] => none
        | '.' :: '*' :: rest =>
            (parseAtoms fuel rest).map
              (GRE.seq (GRE.rep 0 none true [CItem.single '\n']))
        | '.' :: rest =>
            (parseAtoms fuel rest).map
              (GRE.seq (GRE.cls true [CItem.single '\n']))
        | '[' :: rest =>
            (match parseClassBody rest with
             | none => none
             | some (neg, items, rest2) =>
                 match rest2 with
                 | '*' :: rest3 =>
                     (parseAtoms fuel rest3).map
                       (GRE.seq (GRE.rep 0 none neg items))
                 | _ =>
                     (parseAtoms fuel rest2).map
                       (GRE.seq (GRE.cls neg items)))
        | '*' :: _ => none
        | c :: rest => (parseAtoms fuel rest).map (GRE.seq (GRE.lit c))

/-- `regexp.Compile` applied to the text built by globToRegex: the body
text (the concatenation of the fragment texts) is parsed into a
matcher, which is then wrapped in the `^` and `$` anchors the source
writes around it. -/
def regexpCompile (toks : List Tok) : Option GRE :=
  (parseAtoms ((toks.flatMap tokText).length + 1) (toks.flatMap tokText)).map
    fun b => GRE.seq GRE.bol (GRE.seq b GRE.eol)

/-- The two-stage pipeline used by AddPattern: glob translation followed
by regex compilation. -/
def compileGlob (glob : Str) : Option GRE :=
  match globToRegex glob with
  | Except.error _ => none
  | Except.ok toks => regexpCompile toks

/-- IgnoreChecker (ignore.go): the loaded pattern texts and their compiled
predicates, in load order. -/
structure IgnoreChecker where
  patterns : List Str
  regexes : List GRE
deriving Repr, DecidableEq

/-- AddPattern (ignore.go): translate the glob and compile the result; on
either failure return an error leaving the checker unchanged, otherwise
append the pattern text and the compiled regex. The Go method mutates its
receiver and returns `error`; it is modelled as returning the new state
together with an optional error. -/
def AddPattern (ic : IgnoreChecker) (pattern : Str) : IgnoreChecker × Option Unit :=
  match globToRegex pattern with
  | Except.error _ => (ic, some ())
  | Except.ok toks =>
      match regexpCompile toks with
      | none => (ic, some ())
      | some compiled =>
          ({ patterns := ic.patterns ++ [pattern],
             regexes := ic.regexes ++ [compiled] }, none)

/-- `filepath.ToSlash`: replaces the OS path separator by `/`; on the
target platform the separator already is `/`, so this is the identity. -/
def toSlash (p : Str) : Str := p

/-- `filepath.Base` on a slash-separated path: empty path gives `.`,
trailing separators are dropped, an all-separator path gives `/`, and
otherwise the text after the last separator is returned. -/
def base (p : Str) : Str :=
  if p.isEmpty then ".".data
  else
    let q := (p.reverse.dropWhile (fun c => c == '/')).reverse
    if q.isEmpty then "/".data
    else (q.reverse.takeWhile (fun c => !(c == '/'))).reverse

/-- ShouldIgnore (ignore.go): a path is ignored when some compiled
pattern matches the normalized path or its basename. -/
def ShouldIgnore (ic : IgnoreChecker) (filePath : Str) : Bool :=
  let normalizedPath := toSlash filePath
  ic.regexes.any fun r =>
    matchString r normalizedPath || matchString r (base normalizedPath)

/-- Whether a single glob pattern, compiled on its own, matches a path:
the predicate AddPattern installs for the pattern. -/
def pattMatches (glob : Str) (s : Str) : Bool :=
  match compileGlob glob with
  | some r => matchString r s
  | none => false

/-- Whether `r` matches the span covering exactly the whole of `s`. -/
def exactWhole (r : GRE) (s : Str) : Bool :=
  (ends r s 0).contains s.length

/-!
Claims.
-/

/-- C1: for every matched substring (the `Match` field of a Finding),
`MaskSecret` preserves the length; when the match has length at most 8 the
result is entirely mask characters; when it is longer, the first 4 and
last 4 characters are kept verbatim and every character strictly between
them is the mask character `*`. -/
theorem claim_C1 (f : Finding) :
    (MaskSecret f).length = f.Match.length ∧
    (f.Match.length ≤ 8 → ∀ c ∈ MaskSecret f, c = '*') ∧
    (8 < f.Match.length →
      (MaskSecret f).take 4 = f.Match.take 4 ∧
      (MaskSecret f).drop (f.Match.length - 4) = f.Match.drop (f.Match.length - 4) ∧
      ∀ i, 4 ≤ i → i + 4 < f.Match.length → (MaskSecret f)[i]? = some '*') := by
  by_cases hn : f.Match.length ≤ 8
  · refine ⟨?_, ?_, ?_⟩
    · simp [MaskSecret, hn]
    · intro _ c hc
      simp only [MaskSecret, if_pos hn] at hc
      exact List.eq_of_mem_replicate hc
    · intro h8
      omega
  · push_neg at hn
    have hmask : MaskSecret f =
        f.Match.take 4 ++
          (List.replicate (f.Match.length - 8) '*' ++
            f.Match.drop (f.Match.length - 4)) := by
      simp [MaskSecret, Nat.not_le.mpr hn]
    have hlt : (f.Match.take 4).length = 4 := by
      simp [List.length_take]
      omega
    refine ⟨?_, ?_, ?_⟩
    · rw [hmask]
      simp [List.length_append, List.length_take, List.length_drop]
      omega
    · intro h8
      omega
    · intro _
      refine ⟨?_, ?_, ?_⟩
      · rw [hmask, List.take_append_of_le_length (by omega), List.take_take]
        norm_num
      · rw [hmask, ← List.append_assoc]
        have hlen : ((f.Match.take 4) ++ List.replicate (f.Match.length - 8) '*').length
            = f.Match.length - 4 := by
          simp [List.length_append, List.length_take]
          omega
        rw [← hlen, List.drop_left]
      · intro i hi4 hiu
        rw [hmask, List.getElem?_append_right (by omega)]
        rw [List.getElem?_append]
        simp only [hlt, List.length_replicate, List.getElem?_replicate]
        rw [if_pos (by omega), if_pos (by omega)]

/-- A concrete Finding used to witness C1. -/
def maskWitnessFinding : Finding :=
  { RuleID := "OPENAI_API_KEY", RuleName := "OpenAI API Key", FilePath := [],
    LineNum := 1, Content := [], Match := "sk-abc123def456ghi789jklmno".data,
    StartPos := 0, EndPos := 0, Description := "", Advice := "" }

theorem claim_C1_witness :
    (MaskSecret maskWitnessFinding).length = 27 ∧
    (MaskSecret maskWitnessFinding).take 4 = "sk-a".data ∧
    (MaskSecret maskWitnessFinding)[10]? = some '*' := by
  have h := claim_C1 maskWitnessFinding
  refine ⟨?_, ?_, ?_⟩
  · rw [h.1]
    decide
  · have h2 := (h.2.2 (by decide)).1
    rw [h2]
    decide
  · exact (h.2.2 (by decide)).2.2 10 (by decide) (by decide)

-- Helper facts about the parseDiff line classifiers.

theorem stripPre_eq_append : ∀ {pre l r : Str}, stripPre pre l = some r → l = pre ++ r := by
  intro pre
  induction pre with
  | nil =>
      intro l r h
      simp [stripPre] at h
      simp [h]
  | cons p ps ih =>
      intro l r h
      cases l with
      | nil => simp [stripPre] at h
      | cons c cs =>
          simp only [stripPre] at h
          by_cases hpc : p == c
          · rw [if_pos hpc] at h
            have h2 := ih h
            have hpc2 : p = c := by simpa using hpc
            simp [← hpc2, h2]
          · rw [if_neg hpc] at h
            exact absurd h (by simp)

theorem isPrefixOf_ex {pre l : Str} (h : pre.isPrefixOf l = true) : ∃ t, l = pre ++ t := by
  rw [List.isPrefixOf_iff_prefix] at h
  obtain ⟨t, ht⟩ := h
  exact ⟨t, ht.symm⟩

theorem matchHunkHeader_shape {l ds : Str} (h : matchHunkHeader l = some ds) :
    ∃ r, l = ("@@ -".data) ++ r := by
  unfold matchHunkHeader at h
  cases hs : stripPre ("@@ -".data) l with
  | none =>
      rw [hs] at h
      exact absurd h (by simp)
  | some r0 => exact ⟨r0, stripPre_eq_append hs⟩

theorem matchFileHeader_shape {l f : Str} (h : matchFileHeader l = some f) :
    ∃ r, l = ("+++ b/".data) ++ r := by
  unfold matchFileHeader at h
  cases hs : stripPre ("+++ b/".data) l with
  | none =>
      rw [hs] at h
      exact absurd h (by simp)
  | some r0 => exact ⟨r0, stripPre_eq_append hs⟩

theorem matchFileHeader_of_hunk {l ds : Str} (h : matchHunkHeader l = some ds) :
    matchFileHeader l = none := by
  obtain ⟨r, rfl⟩ := matchHunkHeader_shape h
  rfl

theorem hunk_not_added {l ds : Str} (h : matchHunkHeader l = some ds) :
    isAddedLine l = false := by
  obtain ⟨r, rfl⟩ := matchHunkHeader_shape h
  rfl

theorem fileHeader_not_added {l f : Str} (h : matchFileHeader l = some f) :
    isAddedLine l = false := by
  obtain ⟨r, rfl⟩ := matchFileHeader_shape h
  rfl

theorem added_no_file {a : Str} (h : isAddedLine a = true) : matchFileHeader a = none := by
  cases hf : matchFileHeader a with
  | none => rfl
  | some f => rw [fileHeader_not_added hf] at h; exact absurd h (by simp)

theorem added_no_hunk {a : Str} (h : isAddedLine a = true) : matchHunkHeader a = none := by
  cases hh : matchHunkHeader a with
  | none => rfl
  | some ds => rw [hunk_not_added hh] at h; exact absurd h (by simp)

theorem processLine_hunk (f : Str) (n : Nat) {h ds : Str} {N : Nat}
    (hh : matchHunkHeader h = some ds) (ha : atoi ds = Except.ok N) :
    processLine f n h = Except.ok (f, N, none) := by
  simp [processLine, matchFileHeader_of_hunk hh, hh, ha]

theorem processLine_added (f : Str) (m : Nat) {a : Str} (h : isAddedLine a = true) :
    processLine f m a = Except.ok (f, m + 1, some ⟨f, m, a.drop 1⟩) := by
  simp [processLine, added_no_file h, added_no_hunk h, h]

theorem processLine_context (f : Str) (m : Nat) {c : Str}
    (h : (" ".data).isPrefixOf c = true) :
    processLine f m c = Except.ok (f, m + 1, none) := by
  obtain ⟨t, rfl⟩ := isPrefixOf_ex h
  have h1 : matchFileHeader (' ' :: t) = none := rfl
  have h2 : matchHunkHeader (' ' :: t) = none := rfl
  have h3 : isAddedLine (' ' :: t) = false := rfl
  have h4 : (" ".data).isPrefixOf (' ' :: t) = true := by simp [List.isPrefixOf]
  show processLine f m (' ' :: t) = Except.ok (f, m + 1, none)
  simp [processLine, h1, h2, h3, h4]

theorem processLine_count {f : Str} {n : Nat} {l f2 : Str} {n2 : Nat}
    {rec? : Option DiffLine}
    (h : processLine f n l = Except.ok (f2, n2, rec?)) :
    rec?.toList.length = (if isAddedLine l then 1 else 0) := by
  cases hf : matchFileHeader l with
  | some g =>
      have heq : processLine f n l = Except.ok (g, n, none) := by
        simp [processLine, hf]
      rw [heq] at h
      simp only [Except.ok.injEq, Prod.mk.injEq] at h
      rw [← h.2.2, fileHeader_not_added hf]
      simp
  | none =>
      cases hh : matchHunkHeader l with
      | some ds =>
          cases ha : atoi ds with
          | ok N =>
              rw [processLine_hunk f n hh ha] at h
              simp only [Except.ok.injEq, Prod.mk.injEq] at h
              rw [← h.2.2, hunk_not_added hh]
              simp
          | error e =>
              have heq : processLine f n l = Except.error e := by
                simp [processLine, hf, hh, ha]
              rw [heq] at h
              exact absurd h (by simp)
      | none =>
          by_cases hadd : isAddedLine l = true
          · rw [processLine_added f n hadd] at h
            simp only [Except.ok.injEq, Prod.mk.injEq] at h
            rw [← h.2.2, hadd]
            simp
          · have haddf : isAddedLine l = false := by
              revert hadd
              cases isAddedLine l <;> simp
            by_cases hsp : (" ".data).isPrefixOf l = true
            · have heq : processLine f n l = Except.ok (f, n + 1, none) := by
                simp [processLine, hf, hh, haddf, hsp]
              rw [heq] at h
              simp only [Except.ok.injEq, Prod.mk.injEq] at h
              rw [← h.2.2, haddf]
              simp
            · have hspf : (" ".data).isPrefixOf l = false := by
                revert hsp
                cases (" ".data).isPrefixOf l <;> simp
              have heq : processLine f n l = Except.ok (f, n, none) := by
                simp [processLine, hf, hh, haddf, hspf]
              rw [heq] at h
              simp only [Except.ok.injEq, Prod.mk.injEq] at h
              rw [← h.2.2, haddf]
              simp

theorem runLines_count {ls : List Str} : ∀ {f : Str} {n : Nat} {g : Str} {m : Nat}
    {recs : List DiffLine},
    runLines f n ls = Except.ok (g, m, recs) → recs.length = ls.countP isAddedLine := by
  induction ls with
  | nil =>
      intro f n g m recs h
      simp only [runLines, Except.ok.injEq, Prod.mk.injEq] at h
      rw [← h.2.2]
      simp
  | cons l ls ih =>
      intro f n g m recs h
      unfold runLines at h
      cases hp : processLine f n l with
      | error e =>
          simp only [hp] at h
          exact absurd h (by simp)
      | ok res =>
          obtain ⟨f2, n2, rec?⟩ := res
          simp only [hp] at h
          cases hr : runLines f2 n2 ls with
          | error e =>
              simp only [hr] at h
              exact absurd h (by simp)
          | ok res2 =>
              obtain ⟨g2, m2, recs2⟩ := res2
              simp only [hr, Except.ok.injEq, Prod.mk.injEq] at h
              rw [← h.2.2, List.length_append, processLine_count hp, ih hr,
                List.countP_cons]
              exact Nat.add_comm _ _

/-- C2: a hunk header whose captured new-start parses to `N` sets the line
counter to `N`; an added line is emitted at the current counter and
advances it by one; a context line advances it by one without emitting;
hence the added line immediately after the header is emitted at `N`, and
after the concrete header `@@ -10,0 +15,3 @@` three added lines are
emitted at 15, 16 and 17. -/
theorem claim_C2 :
    (∀ (f : Str) (n : Nat) (h ds : Str) (N : Nat),
      matchHunkHeader h = some ds → atoi ds = Except.ok N →
      processLine f n h = Except.ok (f, N, none)) ∧
    (∀ (f : Str) (m : Nat) (a : Str), isAddedLine a = true →
      processLine f m a = Except.ok (f, m + 1, some ⟨f, m, a.drop 1⟩)) ∧
    (∀ (f : Str) (m : Nat) (c : Str), (" ".data).isPrefixOf c = true →
      processLine f m c = Except.ok (f, m + 1, none)) ∧
    (∀ (f : Str) (n : Nat) (h ds : Str) (N : Nat) (a : Str),
      matchHunkHeader h = some ds → atoi ds = Except.ok N → isAddedLine a = true →
      runLines f n [h, a] = Except.ok (f, N + 1, [⟨f, N, a.drop 1⟩])) ∧
    (∀ (f : Str) (n : Nat) (a1 a2 a3 : Str),
      isAddedLine a1 = true → isAddedLine a2 = true → isAddedLine a3 = true →
      runLines f n ["@@ -10,0 +15,3 @@".data, a1, a2, a3] =
        Except.ok (f, 18,
          [⟨f, 15, a1.drop 1⟩, ⟨f, 16, a2.drop 1⟩, ⟨f, 17, a3.drop 1⟩])) := by
  refine ⟨?_, ?_, ?_, ?_, ?_⟩
  · intro f n h ds N hh ha
    exact processLine_hunk f n hh ha
  · intro f m a ha
    exact processLine_added f m ha
  · intro f m c hc
    exact processLine_context f m hc
  · intro f n h ds N a hh ha hadd
    simp [runLines, processLine_hunk f n hh ha, processLine_added f N hadd]
  · intro f n a1 a2 a3 h1 h2 h3
    have hh : matchHunkHeader ("@@ -10,0 +15,3 @@".data) = some ("15".data) := rfl
    have ha : atoi ("15".data) = Except.ok 15 := rfl
    simp [runLines, processLine_hunk f n hh ha, processLine_added f 15 h1,
      processLine_added f 16 h2, processLine_added f 17 h3]

theorem claim_C2_witness :
    processLine ("f".data) 3 ("@@ -1,2 +7,2 @@".data) = Except.ok ("f".data, 7, none) ∧
    processLine ("f".data) 7 ("+abc".data) =
      Except.ok ("f".data, 8, some ⟨"f".data, 7, "abc".data⟩) ∧
    processLine ("f".data) 8 (" ctx".data) = Except.ok ("f".data, 9, none) ∧
    runLines ("f".data) 0 ["@@ -10,0 +15,3 @@".data, "+x".data, "+y".data, "+z".data] =
      Except.ok ("f".data, 18,
        [⟨"f".data, 15, "x".data⟩, ⟨"f".data, 16, "y".data⟩, ⟨"f".data, 17, "z".data⟩]) := by
  refine ⟨?_, ?_, ?_, ?_⟩
  · exact claim_C2.1 ("f".data) 3 _ ("7".data) 7 rfl rfl
  · exact claim_C2.2.1 ("f".data) 7 ("+abc".data) rfl
  · exact claim_C2.2.2.1 ("f".data) 8 (" ctx".data) rfl
  · exact claim_C2.2.2.2.2 ("f".data) 0 ("+x".data) ("+y".data) ("+z".data) rfl rfl rfl

/-- C3 (amended): for every diff text that parseDiff accepts, the number
of emitted DiffLine records equals the number of input lines that begin
with `+` but do not begin with `+++`. (The original claim counted every
`+` line that is not a well-formed `+++ b/<path>` file header; the code
also skips malformed lines beginning with `+++`.) -/
theorem claim_C3 (d : Str) (recs : List DiffLine)
    (h : parseDiff d = Except.ok recs) :
    recs.length = (splitLines d).countP isAddedLine := by
  unfold parseDiff at h
  by_cases hlong : ((rawLines d).any fun l => Nat.ble maxScanTokenSize l.length) = true
  · rw [if_pos hlong] at h
    exact absurd h (by simp)
  · rw [if_neg hlong] at h
    cases hr : runLines [] 0 (splitLines d) with
    | error e =>
        simp only [hr] at h
        exact absurd h (by simp)
    | ok res =>
        obtain ⟨g, m, recs2⟩ := res
        simp only [hr, Except.ok.injEq] at h
        rw [← h]
        exact runLines_count hr

theorem claim_C3_witness :
    parseDiff ("+++ b/f\n+alpha\n+beta".data) =
      Except.ok [⟨"f".data, 0, "alpha".data⟩, ⟨"f".data, 1, "beta".data⟩] ∧
    ([⟨"f".data, 0, "alpha".data⟩, ⟨"f".data, 1, "beta".data⟩] : List DiffLine).length =
      (splitLines ("+++ b/f\n+alpha\n+beta".data)).countP isAddedLine := by
  refine ⟨rfl, ?_⟩
  exact claim_C3 _ _ rfl

/-- C3 counterexample: the line `++++x` begins with `+` and is not a file
header of the form `+++ b/<path>`, so the claim counts it, but parseDiff
emits no record for it (the code skips every line beginning with `+++`). -/
theorem claim_C3_counterexample :
    parseDiff ("++++x".data) = Except.ok [] ∧
    (splitLines ("++++x".data)).countP
      (fun l => ("+".data).isPrefixOf l && (matchFileHeader l).isNone) = 1 := by
  exact ⟨rfl, rfl⟩

theorem processLine_mono {f : Str} {n : Nat} {l f2 : Str} {n2 : Nat}
    {rec? : Option DiffLine} (hnh : matchHunkHeader l = none)
    (h : processLine f n l = Except.ok (f2, n2, rec?)) :
    n ≤ n2 ∧ ∀ r ∈ rec?.toList, r.LineNum = n ∧ n < n2 := by
  cases hf : matchFileHeader l with
  | some g =>
      have heq : processLine f n l = Except.ok (g, n, none) := by
        simp [processLine, hf]
      rw [heq] at h
      simp only [Except.ok.injEq, Prod.mk.injEq] at h
      refine ⟨by omega, ?_⟩
      rw [← h.2.2]
      simp
  | none =>
      by_cases hadd : isAddedLine l = true
      · rw [processLine_added f n hadd] at h
        simp only [Except.ok.injEq, Prod.mk.injEq] at h
        refine ⟨by omega, ?_⟩
        rw [← h.2.2, ← h.2.1]
        intro r hr
        simp only [Option.toList_some, List.mem_singleton] at hr
        subst hr
        exact ⟨rfl, by omega⟩
      · have haddf : isAddedLine l = false := by
          revert hadd
          cases isAddedLine l <;> simp
        by_cases hsp : (" ".data).isPrefixOf l = true
        · rw [processLine_context f n hsp] at h
          simp only [Except.ok.injEq, Prod.mk.injEq] at h
          refine ⟨by omega, ?_⟩
          rw [← h.2.2]
          simp
        · have hspf : (" ".data).isPrefixOf l = false := by
            revert hsp
            cases (" ".data).isPrefixOf l <;> simp
          have heq : processLine f n l = Except.ok (f, n, none) := by
            simp [processLine, hf, hnh, haddf, hspf]
          rw [heq] at h
          simp only [Except.ok.injEq, Prod.mk.injEq] at h
          refine ⟨by omega, ?_⟩
          rw [← h.2.2]
          simp

theorem runLines_mono {ls : List Str} : ∀ {f : Str} {n : Nat} {g : Str} {m : Nat}
    {recs : List DiffLine},
    (∀ l ∈ ls, matchHunkHeader l = none) →
    runLines f n ls = Except.ok (g, m, recs) →
    (∀ r ∈ recs, n ≤ r.LineNum) ∧
      List.Pairwise (fun a b => a.LineNum < b.LineNum) recs := by
  induction ls with
  | nil =>
      intro f n g m recs _ h
      simp only [runLines, Except.ok.injEq, Prod.mk.injEq] at h
      rw [← h.2.2]
      simp
  | cons l ls ih =>
      intro f n g m recs hnh h
      unfold runLines at h
      cases hp : processLine f n l with
      | error e =>
          simp only [hp] at h
          exact absurd h (by simp)
      | ok res =>
          obtain ⟨f2, n2, rec?⟩ := res
          simp only [hp] at h
          cases hr : runLines f2 n2 ls with
          | error e =>
              simp only [hr] at h
              exact absurd h (by simp)
          | ok res2 =>
              obtain ⟨g2, m2, recs2⟩ := res2
              simp only [hr, Except.ok.injEq, Prod.mk.injEq] at h
              obtain ⟨-, -, hrecs⟩ := h
              have hmono := processLine_mono (hnh l (by simp)) hp
              have hih := ih (fun x hx => hnh x (by simp [hx])) hr
              rw [← hrecs]
              constructor
              · intro r hrmem
                rcases List.mem_append.mp hrmem with hm | hm
                · exact (hmono.2 r hm).1 ▸ le_refl _
                · exact le_trans hmono.1 (hih.1 r hm)
              · cases hrecq : rec? with
                | none => simpa [hrecq] using hih.2
                | some rec =>
                    simp only [hrecq, Option.toList_some, List.singleton_append]
                    rw [List.pairwise_cons]
                    refine ⟨?_, hih.2⟩
                    intro b hb
                    have h1 := (hmono.2 rec (by simp [hrecq])).2
                    have h2 := hih.1 b hb
                    have h3 := (hmono.2 rec (by simp [hrecq])).1
                    omega

/-- C7 (amended): within a single hunk — i.e. across any block of diff
lines containing no hunk header — the line numbers of the DiffLine
records emitted for any one file are strictly increasing. (The original
claim, over whole diff texts, fails: a later hunk header may set the
counter below an earlier emitted line number.) -/
theorem claim_C7 (ls : List Str) (f : Str) (n : Nat) (g : Str) (m : Nat)
    (recs : List DiffLine) (F : Str)
    (hnh : ∀ l ∈ ls, matchHunkHeader l = none)
    (h : runLines f n ls = Except.ok (g, m, recs)) :
    List.Pairwise (· < ·)
      ((recs.filter fun r => r.FilePath == F).map fun r => r.LineNum) := by
  have hp := (runLines_mono hnh h).2
  have hsub : (recs.filter fun r => r.FilePath == F).Sublist recs :=
    List.filter_sublist recs
  have hp2 := hp.sublist hsub
  rw [List.pairwise_map]
  exact hp2

theorem claim_C7_witness :
    List.Pairwise (· < ·)
      ((([⟨([] : Str), 0, "a".data⟩, ⟨([] : Str), 2, "b".data⟩] : List DiffLine).filter
          fun r => r.FilePath == ([] : Str)).map fun r => r.LineNum) := by
  exact claim_C7 ["+a".data, " c".data, "+b".data] [] 0 [] 3
    [⟨[], 0, "a".data⟩, ⟨[], 2, "b".data⟩] []
    (by intro l hl; fin_cases hl <;> rfl) rfl

/-- C7 counterexample: a diff whose second hunk header restarts the
counter below the previous emission; the two records for the same file
carry line numbers 5 then 2, which is not strictly increasing. -/
theorem claim_C7_counterexample :
    parseDiff ("@@ -1,0 +5,1 @@\n+a\n@@ -1,0 +2,1 @@\n+b".data) =
      Except.ok [⟨[], 5, "a".data⟩, ⟨[], 2, "b".data⟩] ∧
    (([⟨([] : Str), 5, "a".data⟩, ⟨([] : Str), 2, "b".data⟩] : List DiffLine).map
        fun r => r.LineNum) = [5, 2] ∧
    ¬ (5 : Nat) < 2 := by
  exact ⟨rfl, rfl, by omega⟩

theorem runLines_all_added {ls : List Str} : ∀ {f : Str} {n : Nat},
    (∀ l ∈ ls, isAddedLine l = true) →
    runLines f n ls =
      Except.ok (f, n + ls.length,
        (List.enumFrom n ls).map fun p => ⟨f, p.1, p.2.drop 1⟩) := by
  induction ls with
  | nil =>
      intro f n _
      simp [runLines, List.enumFrom]
  | cons l ls ih =>
      intro f n hall
      have h1 := processLine_added f n (hall l (by simp))
      have h2 := ih (f := f) (n := n + 1) (fun x hx => hall x (by simp [hx]))
      simp only [runLines, h1, h2, List.enumFrom, List.map_cons,
        Option.toList_some, List.singleton_append, List.length_cons,
        Except.ok.injEq, Prod.mk.injEq]
      exact ⟨trivial, by omega, trivial⟩

theorem rawLines_no_newline {s : Str} (h1 : s ≠ []) (h2 : ∀ x ∈ s, ¬ x = '\n') :
    rawLines s = [s] := by
  unfold rawLines
  rw [if_neg (by simpa using h1)]
  have hsplit : s.splitOn '\n' = [s] := by
    show s.splitOnP (fun b => b == '\n') = [s]
    refine List.splitOnP_eq_single _ s ?_
    intro x hx
    simpa using h2 x hx
  rw [hsplit]
  rw [if_neg (by simp [h1])]

/-- C10 (amended): provided no raw line reaches bufio.Scanner's maximum
token size (a longer line makes parseDiff fail with ErrTooLong), added
lines appearing before any file header or hunk header are emitted (not
skipped) with the empty string as file path, numbered by a counter that
starts at 0 and is advanced by each emitted added line and by each
context line; in particular when every line before the first header is an
added line they receive line numbers 0, 1, 2, ... with the first getting
0. (The original claim's "the first such added line gets line number 0"
fails when a context line precedes it, and its "rather than ... causing
an error" fails for an added line at the 64 KiB token limit.) -/
theorem claim_C10 :
    (∀ d : Str, (∀ l ∈ rawLines d, l.length < maxScanTokenSize) →
      (∀ l ∈ splitLines d, isAddedLine l = true) →
      parseDiff d =
        Except.ok ((List.enumFrom 0 (splitLines d)).map fun p =>
          ⟨[], p.1, p.2.drop 1⟩)) ∧
    (∀ (f : Str) (m : Nat) (c : Str), (" ".data).isPrefixOf c = true →
      processLine f m c = Except.ok (f, m + 1, none)) := by
  constructor
  · intro d hlen hall
    have hnot : ((rawLines d).any fun l => Nat.ble maxScanTokenSize l.length) = false := by
      rw [List.any_eq_false]
      intro l hl
      intro hble
      have h1 := Nat.le_of_ble_eq_true hble
      have h2 := hlen l hl
      omega
    unfold parseDiff
    rw [hnot]
    rw [if_neg Bool.false_ne_true]
    simp only [runLines_all_added hall]
  · intro f m c hc
    exact processLine_context f m hc

theorem claim_C10_witness :
    parseDiff ("+a\n+b".data) =
      Except.ok [⟨[], 0, "a".data⟩, ⟨[], 1, "b".data⟩] := by
  exact claim_C10.1 ("+a\n+b".data) (by decide) (by decide)

/-- C10 counterexample: a context line preceding the first added line
makes that added line — still before any file or hunk header — carry
line number 1 rather than 0; and an added line of 65536 characters before
any header is not emitted at all: parseDiff returns the ErrTooLong error
of the line scanner. -/
theorem claim_C10_counterexample :
    parseDiff (" x\n+a".data) = Except.ok [⟨[], 1, "a".data⟩] ∧
    (1 : Nat) ≠ 0 ∧
    parseDiff ('+' :: List.replicate 65535 'a') = Except.error () := by
  refine ⟨rfl, by omega, ?_⟩
  have hraw : rawLines ('+' :: List.replicate 65535 'a') =
      ['+' :: List.replicate 65535 'a'] := by
    refine rawLines_no_newline (List.cons_ne_nil _ _) ?_
    intro x hx
    rcases List.mem_cons.mp hx with h | h
    · subst h
      decide
    · have h2 := List.eq_of_mem_replicate h
      subst h2
      decide
  have hlen2 : ('+' :: List.replicate 65535 'a').length = 65536 := by
    rw [List.length_cons, List.length_replicate]
  have hcond : ((rawLines ('+' :: List.replicate 65535 'a')).any fun l =>
      Nat.ble maxScanTokenSize l.length) = true := by
    rw [hraw, List.any_cons]
    show (Nat.ble maxScanTokenSize (List.length ('+' :: List.replicate 65535 'a')) ||
      List.any [] (fun l => Nat.ble maxScanTokenSize (List.length l))) = true
    rw [hlen2]
    rfl
  unfold parseDiff
  rw [if_pos hcond]

/-- C9: AddPattern is atomic on error — when either compilation stage
fails, the returned checker state is the input state, so a rejected
pattern never influences a later ShouldIgnore decision. -/
theorem claim_C9 (ic : IgnoreChecker) (p : Str) (e : Unit)
    (h : (AddPattern ic p).2 = some e) :
    (AddPattern ic p).1 = ic ∧
    ∀ path, ShouldIgnore (AddPattern ic p).1 path = ShouldIgnore ic path := by
  cases hg : globToRegex p with
  | error u =>
      have heq : AddPattern ic p = (ic, some ()) := by simp [AddPattern, hg]
      rw [heq]
      exact ⟨rfl, fun _ => rfl⟩
  | ok toks =>
      cases hc : regexpCompile toks with
      | none =>
          have heq : AddPattern ic p = (ic, some ()) := by simp [AddPattern, hg, hc]
          rw [heq]
          exact ⟨rfl, fun _ => rfl⟩
      | some r =>
          have heq : AddPattern ic p =
              ({ patterns := ic.patterns ++ [p], regexes := ic.regexes ++ [r] }, none) := by
            simp [AddPattern, hg, hc]
          rw [heq] at h
          exact absurd h (by simp)

theorem claim_C9_witness :
    (AddPattern ⟨[], []⟩ ("[".data)).1 = (⟨[], []⟩ : IgnoreChecker) ∧
    ShouldIgnore (AddPattern ⟨[], []⟩ ("[".data)).1 ("x".data) =
      ShouldIgnore (⟨[], []⟩ : IgnoreChecker) ("x".data) := by
  have h := claim_C9 ⟨[], []⟩ ("[".data) () rfl
  exact ⟨h.1, h.2 ("x".data)⟩

-- Anchoredness of compiled ignore patterns.

theorem regexpCompile_shape {toks : List Tok} {r : GRE}
    (h : regexpCompile toks = some r) :
    ∃ body, r = GRE.seq GRE.bol (GRE.seq body GRE.eol) := by
  unfold regexpCompile at h
  cases hb : parseAtoms ((toks.flatMap tokText).length + 1) (toks.flatMap tokText) with
  | none => rw [hb] at h; exact absurd h (by simp)
  | some b =>
      rw [hb] at h
      simp only [Option.map, Option.some.injEq] at h
      exact ⟨b, h.symm⟩

theorem compileGlob_shape {g : Str} {r : GRE} (h : compileGlob g = some r) :
    ∃ body, r = GRE.seq GRE.bol (GRE.seq body GRE.eol) := by
  unfold compileGlob at h
  cases hg : globToRegex g with
  | error u => rw [hg] at h; exact absurd h (by simp)
  | ok toks => rw [hg] at h; exact regexpCompile_shape h

theorem anchored_ends {body : GRE} {s : Str} {i j : Nat}
    (hj : j ∈ ends (GRE.seq GRE.bol (GRE.seq body GRE.eol)) s i) :
    i = 0 ∧ j = s.length := by
  have hj1 : j ∈ (ends GRE.bol s i).flatMap fun k => ends (GRE.seq body GRE.eol) s k := hj
  rw [List.mem_flatMap] at hj1
  obtain ⟨k, hk, hj2⟩ := hj1
  by_cases hi : i = 0
  · subst hi
    have hk0 : k = 0 := by
      simp [ends] at hk
      omega
    subst hk0
    have hj3 : j ∈ (ends body s 0).flatMap fun m => ends GRE.eol s m := hj2
    rw [List.mem_flatMap] at hj3
    obtain ⟨m, _, hj4⟩ := hj3
    by_cases hms : m = s.length
    · subst hms
      have hjs : j = s.length := by
        simp [ends] at hj4
        omega
      exact ⟨rfl, hjs⟩
    · simp [ends, hms] at hj4
  · simp [ends, hi] at hk

theorem matchString_iff_whole {g : Str} {r : GRE} (hc : compileGlob g = some r)
    (s : Str) : matchString r s = true ↔ exactWhole r s = true := by
  obtain ⟨body, rfl⟩ := compileGlob_shape hc
  constructor
  · intro h
    rw [matchString, List.any_eq_true] at h
    obtain ⟨i, _, hne⟩ := h
    have hnem : ends (GRE.seq GRE.bol (GRE.seq body GRE.eol)) s i ≠ [] := by
      simpa using hne
    obtain ⟨j, hj⟩ := List.exists_mem_of_ne_nil _ hnem
    have ha := anchored_ends hj
    rw [exactWhole, List.contains_eq_any_beq, List.any_eq_true]
    refine ⟨j, ?_, ?_⟩
    · rw [← ha.1]
      exact hj
    · simp [ha.2]
  · intro h
    rw [exactWhole, List.contains_eq_any_beq, List.any_eq_true] at h
    obtain ⟨j, hj, hbeq⟩ := h
    rw [matchString, List.any_eq_true]
    refine ⟨0, by simp, ?_⟩
    simp only [Bool.not_eq_true']
    rcases hl : ends (GRE.seq GRE.bol (GRE.seq body GRE.eol)) s 0 with _ | ⟨x, xs⟩
    · rw [hl] at hj
      exact absurd hj (by simp)
    · rfl

/-- C4: every compiled ignore pattern is anchored — a match span of the
compiled regex always covers the entire string, never a proper substring —
and ShouldIgnore returns true exactly when some loaded pattern's predicate
matches the whole forward-slash-normalized path or the whole basename. -/
theorem claim_C4 :
    (∀ (g : Str) (r : GRE), compileGlob g = some r →
      ∀ (s : Str) (i j : Nat), j ∈ ends r s i → i = 0 ∧ j = s.length) ∧
    (∀ ic : IgnoreChecker, (∀ r ∈ ic.regexes, ∃ g, compileGlob g = some r) →
      ∀ p : Str, (ShouldIgnore ic p = true ↔
        ∃ r ∈ ic.regexes, exactWhole r (toSlash p) = true ∨
          exactWhole r (base (toSlash p)) = true)) := by
  constructor
  · intro g r hc s i j hj
    obtain ⟨body, rfl⟩ := compileGlob_shape hc
    exact anchored_ends hj
  · intro ic hall p
    have hiff : ∀ r ∈ ic.regexes,
        ((matchString r (toSlash p) = true ∨ matchString r (base (toSlash p)) = true) ↔
          (exactWhole r (toSlash p) = true ∨ exactWhole r (base (toSlash p)) = true)) := by
      intro r hr
      obtain ⟨g, hg⟩ := hall r hr
      exact or_congr (matchString_iff_whole hg _) (matchString_iff_whole hg _)
    simp only [ShouldIgnore, List.any_eq_true, Bool.or_eq_true]
    constructor
    · rintro ⟨r, hr, hm⟩
      exact ⟨r, hr, (hiff r hr).mp hm⟩
    · rintro ⟨r, hr, hm⟩
      exact ⟨r, hr, (hiff r hr).mpr hm⟩

/-- The compiled form of the glob `?`. -/
def reQm : GRE :=
  GRE.seq GRE.bol (GRE.seq (GRE.seq (GRE.cls true [CItem.single '/']) GRE.eps) GRE.eol)

/-- The compiled form of the glob `*.md`. -/
def reMd : GRE :=
  GRE.seq GRE.bol
    (GRE.seq
      (GRE.seq (GRE.rep 0 none true [CItem.single '/'])
        (GRE.seq (GRE.lit '.') (GRE.seq (GRE.lit 'm') (GRE.seq (GRE.lit 'd') GRE.eps))))
      GRE.eol)

/-- A checker holding the single compiled pattern `*.md`. -/
def icMd : IgnoreChecker := (AddPattern ⟨[], []⟩ ("*.md".data)).1

theorem claim_C4_witness :
    ((0 : Nat) = 0 ∧ (1 : Nat) = ("x".data).length) ∧
    (ShouldIgnore icMd ("docs/README.md".data) = true ↔
      ∃ r ∈ icMd.regexes, exactWhole r (toSlash ("docs/README.md".data)) = true ∨
        exactWhole r (base (toSlash ("docs/README.md".data))) = true) := by
  constructor
  · exact claim_C4.1 ("?".data) reQm rfl ("x".data) 0 1 (by decide)
  · refine claim_C4.2 icMd ?_ ("docs/README.md".data)
    intro r hr
    have hreg : icMd.regexes = [reMd] := rfl
    rw [hreg, List.mem_singleton] at hr
    subst hr
    exact ⟨"*.md".data, rfl⟩

theorem le_takeWhile_length {p : Char → Bool} : ∀ {l : Str} {m : Nat}, m ≤ l.length →
    (∀ t, t < m → ∃ c, l[t]? = some c ∧ p c = true) →
    m ≤ (l.takeWhile p).length := by
  intro l
  induction l with
  | nil =>
      intro m hm _
      simpa using hm
  | cons a l ih =>
      intro m hm hall
      cases m with
      | zero => exact Nat.zero_le _
      | succ m2 =>
          obtain ⟨c, hc, hpc⟩ := hall 0 (by omega)
          have hca : a = c := by
            simp only [List.getElem?_cons_zero, Option.some.injEq] at hc
            exact hc
          rw [List.takeWhile_cons, if_pos (hca ▸ hpc)]
          have hih := ih (m := m2) (by simpa using hm) (fun t ht => by
            have h2 := hall (t + 1) (by omega)
            simpa using h2)
          simp only [List.length_cons]
          omega

/-- C5 (amended): the translation of the `**/` glob token accepts, from
any position, exactly the spans that end just after a separator (with no
newline before it, per RE2 `.`), and additionally the empty span when the
token stands at the very start of the pattern (position 0, via the `^`
branch of `(?:.*/|^)`); and the glob `**/*test*` matches both
`a/b/footest.go` and `test.js`. (The original claim's "empty prefix"
alternative fails when `**/` occurs mid-pattern, since the `^` branch
succeeds only at position 0.) -/
theorem claim_C5 :
    (∀ (s : Str) (i j : Nat), j ∈ ends greAnySegs s i →
      (i = 0 ∧ j = 0) ∨ (0 < j ∧ s[j - 1]? = some '/')) ∧
    (∀ (s : Str) (i k : Nat), s[k]? = some '/' → i ≤ k →
      (∀ t, i ≤ t → t < k → ¬ s[t]? = some '\n') →
      (k + 1) ∈ ends greAnySegs s i) ∧
    (∀ s : Str, 0 ∈ ends greAnySegs s 0) ∧
    (pattMatches ("**/*test*".data) ("a/b/footest.go".data) = true ∧
      pattMatches ("**/*test*".data) ("test.js".data) = true) := by
  refine ⟨?_, ?_, ?_, ?_, ?_⟩
  · intro s i j hj
    have hj1 : j ∈
        (ends (GRE.seq (GRE.rep 0 none true [CItem.single '\n']) (GRE.lit '/')) s i) ++
          ends GRE.bol s i := hj
    rcases List.mem_append.mp hj1 with h1 | h2
    · right
      have h3 : j ∈ (ends (GRE.rep 0 none true [CItem.single '\n']) s i).flatMap
          fun k => ends (GRE.lit '/') s k := h1
      rw [List.mem_flatMap] at h3
      obtain ⟨k, _, hl⟩ := h3
      simp only [ends] at hl
      cases hg : s[k]? with
      | none =>
          simp only [hg] at hl
          exact absurd hl (by simp)
      | some d =>
          simp only [hg] at hl
          by_cases hd : d == '/'
          · rw [if_pos hd] at hl
            simp only [List.mem_singleton] at hl
            subst hl
            refine ⟨by omega, ?_⟩
            have hd2 : d = '/' := by simpa using hd
            simpa [hd2] using hg
          · rw [if_neg hd] at hl
            exact absurd hl (by simp)
    · left
      by_cases hi : i = 0
      · subst hi
        simp [ends] at h2
        exact ⟨rfl, by omega⟩
      · simp [ends, hi] at h2
  · intro s i k hsep hik hnl
    have hklen : k < s.length := by
      by_contra hc
      rw [List.getElem?_eq_none (by omega)] at hsep
      exact Option.noConfusion hsep
    have hrun : k - i ≤ runLen true [CItem.single '\n'] (s.drop i) := by
      rw [runLen]
      refine le_takeWhile_length (by simp; omega) ?_
      intro t ht
      have hlt : i + t < s.length := by omega
      refine ⟨s[i + t], ?_, ?_⟩
      · rw [List.getElem?_drop]
        exact List.getElem?_eq_getElem hlt
      · have hne : ¬ s[i + t]? = some '\n' := hnl (i + t) (by omega) (by omega)
        rw [List.getElem?_eq_getElem hlt] at hne
        have : ¬ s[i + t] = '\n' := fun hh => hne (by rw [hh])
        simp [cmatch, cmem, this]
    have hmem1 : k ∈ ends (GRE.rep 0 none true [CItem.single '\n']) s i := by
      simp only [ends, List.mem_map, List.mem_range]
      exact ⟨runLen true [CItem.single '\n'] (s.drop i) - (k - i), by omega, by omega⟩
    have hmem2 : (k + 1) ∈ ends (GRE.lit '/') s k := by
      simp only [ends, hsep]
      simp
    have hbranch : (k + 1) ∈
        ends (GRE.seq (GRE.rep 0 none true [CItem.single '\n']) (GRE.lit '/')) s i := by
      have : (k + 1) ∈ (ends (GRE.rep 0 none true [CItem.single '\n']) s i).flatMap
          fun m => ends (GRE.lit '/') s m := List.mem_flatMap.mpr ⟨k, hmem1, hmem2⟩
      exact this
    exact List.mem_append.mpr (Or.inl hbranch)
  · intro s
    have h2 : (0 : Nat) ∈ ends GRE.bol s 0 := by simp [ends]
    exact List.mem_append.mpr (Or.inr h2)
  · decide
  · decide

/-- C5 counterexample: with `**/` in the middle of a pattern the `^`
branch of its translation cannot fire, so `a/**/b` does not match `a/b`
(zero directory segments), though it does match `a/x/b`. -/
theorem claim_C5_counterexample :
    pattMatches ("a/**/b".data) ("a/b".data) = false ∧
    pattMatches ("a/**/b".data) ("a/x/b".data) = true := by
  exact ⟨by decide, by decide⟩

theorem claim_C5_witness :
    ((0 : Nat) = 0 ∧ (0 : Nat) = 0) ∧
    (2 : Nat) + 1 ∈ ends greAnySegs ("ab/c".data) 1 := by
  constructor
  · have h := claim_C5.1 ("x".data) 0 0 (claim_C5.2.2.1 ("x".data))
    rcases h with h1 | h2
    · exact h1
    · exact absurd h2.2 (by decide)
  · refine claim_C5.2.1 ("ab/c".data) 1 2 (by decide) (by omega) ?_
    intro t ht1 ht2
    have ht : t = 1 := by omega
    subst ht
    decide

-- Span validity for FindAll results.

theorem findFrom_spec {r : GRE} {s : Str} {pos i e : Nat}
    (h : findFrom r s pos = some (i, e)) :
    pos ≤ i ∧ i ≤ s.length ∧ e ∈ ends r s i := by
  unfold findFrom at h
  obtain ⟨a, ha, hf⟩ := List.exists_of_findSome?_eq_some h
  rw [List.mem_range'_1] at ha
  cases hh : (ends r s a).head? with
  | none =>
      rw [hh] at hf
      exact absurd hf (by simp)
  | some e2 =>
      rw [hh] at hf
      simp only [Option.map_some', Option.some.injEq, Prod.mk.injEq] at hf
      obtain ⟨h1, h2⟩ := hf
      have hmem : e2 ∈ ends r s a := by
        cases hl : ends r s a with
        | nil =>
            rw [hl] at hh
            exact absurd hh (by simp)
        | cons x xs =>
            rw [hl] at hh
            simp only [List.head?_cons, Option.some.injEq] at hh
            rw [← hh]
            simp
      rw [← h1, ← h2]
      exact ⟨by omega, by omega, hmem⟩

theorem findAllAux_spec {r : GRE} {s : Str} :
    ∀ {fuel : Nat} {pos : Nat} {prevEnd : Option Nat} {i e : Nat},
    (i, e) ∈ findAllAux r s pos prevEnd fuel →
    i ≤ e ∧ e ≤ s.length := by
  intro fuel
  induction fuel with
  | zero =>
      intro pos prevEnd i e h
      simp [findAllAux] at h
  | succ fuel ih =>
      intro pos prevEnd i e h
      cases hf : findFrom r s pos with
      | none =>
          simp only [findAllAux, hf] at h
          exact absurd h (by simp)
      | some p =>
          obtain ⟨i2, e2⟩ := p
          have hs := findFrom_spec hf
          have hb := mem_ends_bounds hs.2.1 hs.2.2
          simp only [findAllAux, hf] at h
          by_cases hie2 : i2 = e2
          · rw [if_pos hie2] at h
            by_cases hpv : prevEnd = some i2
            · rw [if_pos hpv] at h
              exact ih h
            · rw [if_neg hpv] at h
              rcases List.mem_cons.mp h with heq | hmem
              · have h12 : i = i2 ∧ e = e2 := by simpa using heq
                obtain ⟨hie, hee⟩ := h12
                exact ⟨by omega, by omega⟩
              · exact ih hmem
          · rw [if_neg hie2] at h
            rcases List.mem_cons.mp h with heq | hmem
            · have h12 : i = i2 ∧ e = e2 := by simpa using heq
              obtain ⟨hie, hee⟩ := h12
              exact ⟨by omega, by omega⟩
            · exact ih hmem

theorem findAllIndex_spec {r : GRE} {s : Str} {i e : Nat}
    (h : (i, e) ∈ findAllIndex r s) : i ≤ e ∧ e ≤ s.length :=
  findAllAux_spec h

theorem buildFindings_spec {rule : SecretRule} {fp : Str} {ln : Nat} {content : Str}
    {indexes : List (Nat × Nat)} :
    ∀ {rows : List (List Str)} {start : Nat} {f : Finding},
    rows = ((indexes.map fun p => [sub content p.1 p.2]).drop start) →
    f ∈ buildFindings rule fp ln content indexes start rows →
    ∃ a b, (a, b) ∈ indexes ∧ f.StartPos = a ∧ f.EndPos = b ∧
      f.Match = sub content a b := by
  intro rows
  induction rows with
  | nil =>
      intro start f _ hf
      simp [buildFindings] at hf
  | cons row rest ih =>
      intro start f hrows hf
      have hlen : start < indexes.length := by
        by_contra hc
        push_neg at hc
        rw [List.drop_eq_nil_of_le (by simpa using hc)] at hrows
        exact List.noConfusion hrows
      have hlenm : start < (indexes.map fun p => [sub content p.1 p.2]).length := by
        simpa using hlen
      rw [List.drop_eq_getElem_cons hlenm] at hrows
      have hrow : row = [sub content (indexes[start]).1 (indexes[start]).2] := by
        have := (List.cons.injEq .. |>.mp hrows).1
        simpa using this
      have hrest : rest = ((indexes.map fun p => [sub content p.1 p.2]).drop (start + 1)) :=
        (List.cons.injEq .. |>.mp hrows).2
      simp only [buildFindings] at hf
      rcases List.mem_cons.mp hf with heq | hmem
      · refine ⟨(indexes[start]).1, (indexes[start]).2, ?_, ?_, ?_, ?_⟩
        · exact List.getElem_mem hlen
        · rw [heq]
          simp only
          rw [List.getD_eq_getElem?_getD, List.getElem?_eq_getElem hlen]
          rfl
        · rw [heq]
          simp only
          rw [List.getD_eq_getElem?_getD, List.getElem?_eq_getElem hlen]
          rfl
        · rw [heq]
          simp only [hrow]
          rfl
      · exact ih hrest hmem

theorem buildFindings_content {rule : SecretRule} {fp : Str} {ln : Nat}
    {content : Str} {indexes : List (Nat × Nat)} :
    ∀ {rows : List (List Str)} {start : Nat} {f : Finding},
    f ∈ buildFindings rule fp ln content indexes start rows →
    f.Content = content := by
  intro rows
  induction rows with
  | nil =>
      intro start f hf
      simp [buildFindings] at hf
  | cons row rest ih =>
      intro start f hf
      simp only [buildFindings] at hf
      rcases List.mem_cons.mp hf with heq | hmem
      · rw [heq]
      · exact ih hmem

/-- C6: every Finding produced by ScanLine has offsets satisfying
`0 ≤ StartPos ≤ EndPos ≤ length Content` and its `Match` field equals the
slice `Content[StartPos:EndPos]`. -/
theorem claim_C6 (rules : List SecretRule) (fp : Str) (ln : Nat) (content : Str)
    (f : Finding) (hf : f ∈ ScanLine rules fp ln content) :
    0 ≤ f.StartPos ∧ f.StartPos ≤ f.EndPos ∧ f.EndPos ≤ f.Content.length ∧
      f.Content = content ∧ f.Match = sub f.Content f.StartPos f.EndPos := by
  simp only [ScanLine, List.mem_flatMap] at hf
  obtain ⟨rule, _, hf2⟩ := hf
  by_cases hemp : (findAllSubmatch rule.Pattern content).isEmpty
  · rw [if_pos hemp] at hf2
    exact absurd hf2 (by simp)
  · rw [if_neg hemp] at hf2
    have hspec := @buildFindings_spec rule fp ln content
      (findAllIndex rule.Pattern content) (findAllSubmatch rule.Pattern content) 0 f
      (by simp [findAllSubmatch]) hf2
    obtain ⟨a, b, hab, h1, h2, h3⟩ := hspec
    have hbound := findAllIndex_spec hab
    have hcont : f.Content = content := buildFindings_content hf2
    refine ⟨Nat.zero_le _, by omega, by rw [hcont]; omega, hcont, ?_⟩
    rw [h1, h2, h3, hcont]

/-- The input line of C8. -/
def c8line : Str := "API_KEY=sk-abc123def456ghi789jklmno".data

/-- The single finding the default rules produce on `c8line`. -/
def openaiFinding : Finding :=
  { RuleID := "OPENAI_API_KEY", RuleName := "OpenAI API Key", FilePath := "t".data,
    LineNum := 1, Content := c8line, Match := "sk-abc123def456ghi789jklmno".data,
    StartPos := 8, EndPos := 35,
    Description := "OpenAI API key detected",
    Advice := "Move this to an environment variable (.env file) and add .env to .gitignore" }

theorem claim_C6_witness :
    0 ≤ openaiFinding.StartPos ∧ openaiFinding.StartPos ≤ openaiFinding.EndPos ∧
    openaiFinding.EndPos ≤ openaiFinding.Content.length ∧
    openaiFinding.Content = c8line ∧
    openaiFinding.Match =
      sub openaiFinding.Content openaiFinding.StartPos openaiFinding.EndPos := by
  refine claim_C6 defaultRules ("t".data) 1 c8line openaiFinding ?_
  have hm : ScanLine defaultRules ("t".data) 1 c8line = [openaiFinding] := rfl
  rw [hm]
  simp

/-- C8: on the line `API_KEY=sk-abc123def456ghi789jklmno` the default rule
library produces exactly one Finding, from the OPENAI_API_KEY rule, with
the 27-character match `sk-abc123def456ghi789jklmno` at offsets 8..35; no
other rule (in particular not GENERIC_API_KEY, whose value class admits
only 2 characters after the `=` before the `-` stops it, short of the
required 32) matches. -/
theorem claim_C8 (fp : Str) (ln : Nat) :
    (ScanLine defaultRules fp ln c8line).map
        (fun f => (f.RuleID, f.Match, f.StartPos, f.EndPos)) =
      [("OPENAI_API_KEY", "sk-abc123def456ghi789jklmno".data, 8, 35)] := rfl
